import Mathlib

/-!
Verification of the fetch/fallback/cache core of the Price-comparison-app
(src/main.py, class PriceRatioApp).

The embedding models the Python dictionaries `Dict[str, float]` as
association lists `List (String × ℚ)` built with dict-style insertion
(`dictInsert` overwrites an existing key in place, otherwise appends), and
floating-point prices as rationals.  External effects are passed in
explicitly: the cache file is a `CacheStorage` value, the HTTP responses of
the NBP, yfinance and CoinGecko endpoints are `Except` values carried by an
environment record, and the `update_api_status` calls of the source are
collected into a `Status` list, in call order.  The calendar conversion
`datetime.fromtimestamp(ms/1000).strftime` used by the Bitcoin adapter is
timezone dependent; it enters the model as an explicit parameter
`dateOf : Int → String`.
-/

namespace PriceApp

/-- A date → price dictionary (`Dict[str, float]` in the source). -/
abbrev PriceSeries := List (String × ℚ)

/-- `d.get(k)` on a Python dict: the value at key `k`, if any.  The model
keeps the first entry for a key; `dictInsert` keeps keys unique, so for any
series built by the adapters this is the dict lookup. -/
def lookup : PriceSeries → String → Option ℚ
  | [], _ => none
  | (k2, v) :: rest, k => if k2 = k then some v else lookup rest k

/-- The key list of a series (`d.keys()`). -/
def keys (d : PriceSeries) : List String := d.map Prod.fst

/-- `k in d` on a Python dict. -/
def containsKey (d : PriceSeries) (k : String) : Bool :=
  (keys d).contains k

/-- `d[k] = v` on a Python dict: overwrite in place if the key exists,
otherwise append. -/
def dictInsert (d : PriceSeries) (k : String) (v : ℚ) : PriceSeries :=
  if containsKey d k then
    d.map fun p => if p.1 = k then (k, v) else p
  else
    d ++ [(k, v)]

/-- Python truthiness of an `Optional[Dict]`: `None` and the empty dict are
falsy (`if cached_prices:`, `if gold_prices and bitcoin_prices:`). -/
def truthy : Option PriceSeries → Bool
  | none => false
  | some s => !s.isEmpty

/-- Python truthiness of an `Optional[float]`: `None` and `0.0` are falsy
(`if gold_price and bitcoin_price:` in `refresh_data`). -/
def optTruthy : Option ℚ → Bool
  | none => false
  | some q => decide (q ≠ 0)

/-- The state of the cache file `gold_prices_cache.json`: absent (opening
raises), present but unreadable (json decoding or key access raises), or a
well-formed record `{timestamp, prices}`. -/
inductive CacheStorage where
  | missing
  | malformed
  | record (timestamp : Int) (prices : PriceSeries)
  deriving DecidableEq

/-- The cache freshness window, `timedelta(hours=1)`, in seconds. -/
def TTL : Int := 3600

/-- `load_cached_prices` (src/main.py:258-267): return the cached series only
when the file holds a well-formed record younger than `TTL`; any exception is
swallowed and yields `None`.  Totality of this function is the model of
"never raises to the caller". -/
def load_cached_prices (storage : CacheStorage) (now : Int) : Option PriceSeries :=
  match storage with
  | CacheStorage.missing => none
  | CacheStorage.malformed => none
  | CacheStorage.record ts prices =>
      if now - ts < TTL then some prices else none

/-- `cache_prices` (src/main.py:247-256): overwrite the single cache slot
with `{timestamp: now, prices}`.  A failing write (`writeOk = false`) is
swallowed: the function still returns normally; the on-disk effect of an
interrupted write is not modelled beyond that no exception propagates. -/
def cache_prices (now : Int) (prices : PriceSeries) (writeOk : Bool)
    (storage : CacheStorage) : CacheStorage :=
  if writeOk then CacheStorage.record now prices else storage

/-- One `update_api_status` call (src/main.py:61-71). -/
structure Status where
  api_name : String
  success : Bool
  message : String
  deriving DecidableEq

/-- The externally visible operations of one refresh cycle, in order. -/
inductive Event where
  | cacheRead
  | nbpCall
  | cacheWrite
  | yfCall
  | btcCall
  deriving DecidableEq

/-- One row of the NBP JSON payload (`item['data']`, `item['cena']`). -/
structure NbpItem where
  data : String
  cena : ℚ
  deriving DecidableEq

/-- The environment of one gold-price fetch: cache file state, current time,
whether a cache write would succeed, and the outcomes of the two upstream
calls.  `nbpResp = .error e` covers both a non-200 status and a raised
exception, `e` being the status message; `yfHist` is the `(date, Close)`
rows of `gld.history`. -/
structure GoldEnv where
  storage : CacheStorage
  now : Int
  writeOk : Bool
  nbpResp : Except String (List NbpItem)
  yfHist : Except String (List (String × ℚ))

/-- Result of an adapter call: statuses emitted, events performed, series. -/
structure FetchResult where
  statuses : List Status
  events : List Event
  series : Option PriceSeries
  deriving DecidableEq

/-- Result of the gold fallback chain, which may also rewrite the cache. -/
structure GoldResult where
  statuses : List Status
  events : List Event
  storage : CacheStorage
  series : Option PriceSeries
  deriving DecidableEq

/-- The NBP payload loop (src/main.py:171-177):
`prices[date] = cena * 31.1034768 * 0.25`. -/
def nbpParse (items : List NbpItem) : PriceSeries :=
  items.foldl (fun prices item =>
    dictInsert prices item.data (item.cena * 31.1034768 * 0.25)) []

/-- The yfinance loop (src/main.py:202-206): `prices[date] = Close * 10`. -/
def yfParse (rows : List (String × ℚ)) : PriceSeries :=
  rows.foldl (fun prices r => dictInsert prices r.1 (r.2 * 10)) []

/-- `get_gold_prices_yfinance` (src/main.py:192-214): convert the GLD
history, emit one YFinance status; on exception emit a failure status and
return `None`. -/
def get_gold_prices_yfinance (env : GoldEnv) : FetchResult :=
  match env.yfHist with
  | Except.ok rows =>
      ⟨[⟨"YFinance", true, ""⟩], [Event.yfCall], some (yfParse rows)⟩
  | Except.error e =>
      ⟨[⟨"YFinance", false, e⟩], [Event.yfCall], none⟩

/-- `get_gold_prices_historical` (src/main.py:153-190): try the cache, then
NBP (writing back to the cache on success), then yfinance. -/
def get_gold_prices_historical (env : GoldEnv) : GoldResult :=
  let cached := load_cached_prices env.storage env.now
  if truthy cached then
    ⟨[⟨"NBP", true, "Using cached data"⟩], [Event.cacheRead], env.storage, cached⟩
  else
    match env.nbpResp with
    | Except.ok items =>
        let prices := nbpParse items
        let storage2 := cache_prices env.now prices env.writeOk env.storage
        ⟨[⟨"NBP", true, ""⟩], [Event.cacheRead, Event.nbpCall, Event.cacheWrite],
          storage2, some prices⟩
    | Except.error e =>
        let fb := get_gold_prices_yfinance env
        ⟨⟨"NBP", false, e⟩ :: fb.statuses,
          [Event.cacheRead, Event.nbpCall] ++ fb.events, env.storage, fb.series⟩

/-- The CoinGecko payload loop (src/main.py:232-236):
`if date not in prices: prices[date] = price`, over `[timestampMillis,
price]` pairs in response order. -/
def btcParse (dateOf : Int → String) (pairs : List (Int × ℚ)) : PriceSeries :=
  pairs.foldl (fun prices p =>
    let date := dateOf p.1
    if containsKey prices date then prices else prices ++ [(date, p.2)]) []

/-- `get_bitcoin_prices_historical` (src/main.py:216-245). -/
def get_bitcoin_prices_historical (dateOf : Int → String)
    (resp : Except String (List (Int × ℚ))) : FetchResult :=
  match resp with
  | Except.ok pairs =>
      ⟨[⟨"CoinGecko", true, ""⟩], [Event.btcCall], some (btcParse dateOf pairs)⟩
  | Except.error e =>
      ⟨[⟨"CoinGecko", false, e⟩], [Event.btcCall], none⟩

/-- The two values of `self.ratio_mode`. -/
inductive RatioMode where
  | btc_gold
  | gold_btc
  deriving DecidableEq

/-- `calculate_ratio` (src/main.py:269-274). -/
def calculate_ratio (mode : RatioMode) (gold_price btc_price : ℚ) : ℚ :=
  match mode with
  | RatioMode.btc_gold => btc_price / gold_price
  | RatioMode.gold_btc => gold_price / btc_price

/-- One row of the table / of `self.current_data` (src/main.py:321-326). -/
structure Row where
  date : String
  gold_price : ℚ
  bitcoin_price : ℚ
  ratio : ℚ
  deriving DecidableEq

/-- Python's `l[-n:]` for `n > 0`: the last `min n l.length` elements. -/
def takeLast (n : Nat) (l : List String) : List String :=
  l.drop (l.length - n)

/-- The row loop of `refresh_data` (src/main.py:310-334):
`dates = sorted(set(gold) & set(bitcoin))[-limit:]`, then one row per date
whose two prices are truthy. -/
def computeRows (gold_prices bitcoin_prices : PriceSeries) (mode : RatioMode)
    (limit : Nat) : List Row :=
  let dates := takeLast limit
    (List.insertionSort (· ≤ ·)
      ((keys gold_prices).dedup.filter fun d =>
        decide (d ∈ keys bitcoin_prices)))
  dates.filterMap fun date =>
    match lookup gold_prices date, lookup bitcoin_prices date with
    | some g, some b =>
        if g ≠ 0 ∧ b ≠ 0 then
          some ⟨date, g, b, calculate_ratio mode g b⟩
        else none
    | _, _ => none

/-- The mutable widget state `refresh_data` touches. -/
structure AppState where
  current_data : List Row
  tree : List Row
  refresh_label : String
  deriving DecidableEq

/-- The external world of one full refresh. -/
structure Env where
  gold : GoldEnv
  dateOf : Int → String
  btcResp : Except String (List (Int × ℚ))

/-- Everything one `refresh_data` call produces or changes. -/
structure RefreshOutcome where
  state : AppState
  storage : CacheStorage
  events : List Event
  statuses : List Status
  dialog : Option String
  deriving DecidableEq

/-- `refresh_data` (src/main.py:285-342): validate `days`, clear the table,
run the gold chain and the Bitcoin fetch, and either fill the table or
report the aggregate failure. -/
def refresh_data (days : Int) (mode : RatioMode) (env : Env)
    (st : AppState) : RefreshOutcome :=
  if days ≤ 0 then
    ⟨st, env.gold.storage, [], [], some "Please enter a positive number of days"⟩
  else
    let gr := get_gold_prices_historical env.gold
    let br := get_bitcoin_prices_historical env.dateOf env.btcResp
    if truthy gr.series && truthy br.series then
      let rows := computeRows (gr.series.getD []) (br.series.getD [])
        mode days.toNat
      ⟨⟨rows, rows, "Last refreshed"⟩, gr.storage, gr.events ++ br.events,
        gr.statuses ++ br.statuses, none⟩
    else
      ⟨⟨[], [], "Error fetching data. Please try again."⟩, gr.storage,
        gr.events ++ br.events, gr.statuses ++ br.statuses,
        some "Failed to fetch price data"⟩

/-- The Ratio Calculator date selection, stated in the words of the spec:
intersect the two key sets, sort ascending, keep at most the last `limit`
dates.  `computeRows` is proved to refine this. -/
def specDates (gold_prices bitcoin_prices : PriceSeries) (limit : Nat) :
    List String :=
  takeLast limit
    (Finset.sort (· ≤ ·) ((keys gold_prices).toFinset ∩ (keys bitcoin_prices).toFinset))

/-- A fixed trivial calendar map, used by concrete witnesses. -/
def constDate : Int → String := fun _ => "2024-01-01"

/-! ### Association-list lemmas -/

theorem lookup_append (d1 d2 : PriceSeries) (k : String) :
    lookup (d1 ++ d2) k = (lookup d1 k).or (lookup d2 k) := by
  induction d1 with
  | nil => simp [lookup]
  | cons p rest ih =>
    by_cases h : p.1 = k <;> simp [lookup, h, ih]

theorem lookup_eq_none_iff (d : PriceSeries) (k : String) :
    lookup d k = none ↔ k ∉ keys d := by
  induction d with
  | nil => simp [lookup, keys]
  | cons p rest ih =>
    by_cases h : p.1 = k <;> simp [lookup, keys, h, ih, Ne.symm]

theorem mem_of_lookup_eq_some {d : PriceSeries} {k : String} {v : ℚ}
    (h : lookup d k = some v) : (k, v) ∈ d := by
  induction d with
  | nil => simp [lookup] at h
  | cons p rest ih =>
    obtain ⟨a, b⟩ := p
    by_cases hk : a = k
    · subst hk
      simp only [lookup, if_pos rfl] at h
      injection h with h2
      subst h2
      exact List.mem_cons_self _ _
    · simp only [lookup, if_neg hk] at h
      exact List.mem_cons_of_mem _ (ih h)

theorem lookup_isSome_iff (d : PriceSeries) (k : String) :
    (lookup d k).isSome ↔ k ∈ keys d := by
  cases hc : lookup d k with
  | none =>
    simp only [Option.isSome_none, Bool.false_eq_true, false_iff]
    exact (lookup_eq_none_iff d k).mp hc
  | some v =>
    simp only [Option.isSome_some, true_iff]
    exact List.mem_map.mpr ⟨(k, v), mem_of_lookup_eq_some hc, rfl⟩

theorem lookup_eq_some_of_nodup {d : PriceSeries} {k : String} {v : ℚ}
    (hnd : (keys d).Nodup) (hm : (k, v) ∈ d) : lookup d k = some v := by
  induction d with
  | nil => simp at hm
  | cons p rest ih =>
    rcases List.mem_cons.mp hm with h | h
    · subst h
      simp [lookup]
    · have hk : p.1 ≠ k := by
        rintro rfl
        exact (List.nodup_cons.mp hnd).1
          (List.mem_map.mpr ⟨(p.1, v), h, rfl⟩)
      simp only [lookup, if_neg hk]
      exact ih (List.nodup_cons.mp hnd).2 h

theorem lookup_congr_perm {d1 d2 : PriceSeries} (h : List.Perm d1 d2)
    (hnd : (keys d1).Nodup) (k : String) : lookup d1 k = lookup d2 k := by
  have hnd2 : (keys d2).Nodup := ((h.map Prod.fst).nodup_iff).mp hnd
  cases hc : lookup d1 k with
  | none =>
    have hk : k ∉ keys d2 := by
      intro hk2
      have := (lookup_eq_none_iff d1 k).mp hc
      exact this (((h.map Prod.fst).mem_iff).mpr hk2)
    exact ((lookup_eq_none_iff d2 k).mpr hk).symm
  | some v =>
    exact (lookup_eq_some_of_nodup hnd2 (h.mem_iff.mp (mem_of_lookup_eq_some hc))).symm

theorem containsKey_iff (d : PriceSeries) (k : String) :
    containsKey d k = true ↔ k ∈ keys d := by
  simp [containsKey, List.contains_iff_exists_mem_beq, beq_iff_eq]

/-- What the CoinGecko loop accumulates: over any starting dict, each key
ends at the value it already had, or else at the first response pair that
maps to it. -/
theorem btcParse_foldl_lookup (dateOf : Int → String) (pairs : List (Int × ℚ))
    (acc : PriceSeries) (k : String) :
    lookup (pairs.foldl (fun prices p =>
        let date := dateOf p.1
        if containsKey prices date then prices else prices ++ [(date, p.2)]) acc) k
      = (lookup acc k).or ((pairs.find? fun p => dateOf p.1 == k).map Prod.snd) := by
  induction pairs generalizing acc with
  | nil => simp
  | cons hd tl ih =>
    simp only [List.foldl_cons]
    by_cases hc : containsKey acc (dateOf hd.1)
    · rw [if_pos hc, ih]
      by_cases hk : dateOf hd.1 = k
      · subst hk
        obtain ⟨v, hv⟩ := Option.isSome_iff_exists.mp
          ((lookup_isSome_iff acc _).mpr ((containsKey_iff acc _).mp hc))
        simp [List.find?, hv]
      · simp [List.find?, hk, beq_eq_false_iff_ne.mpr hk]
    · rw [if_neg hc, ih]
      have hnone : lookup acc (dateOf hd.1) = none := by
        rw [lookup_eq_none_iff]
        intro hm
        exact hc ((containsKey_iff acc _).mpr hm)
      by_cases hk : dateOf hd.1 = k
      · subst hk
        simp [List.find?, lookup_append, hnone, lookup]
      · simp [List.find?, hk, beq_eq_false_iff_ne.mpr hk, lookup_append, lookup]

/-- The list the row loop iterates over is, word for word from the spec, the
sorted key-set intersection. -/
theorem sorted_intersect_eq (gold btc : PriceSeries) :
    List.insertionSort (· ≤ ·)
        ((keys gold).dedup.filter fun d => decide (d ∈ keys btc))
      = Finset.sort (· ≤ ·) ((keys gold).toFinset ∩ (keys btc).toFinset) := by
  apply List.eq_of_perm_of_sorted ?_ (List.sorted_insertionSort _ _)
    (Finset.sort_sorted _ _)
  refine (List.perm_insertionSort _ _).trans ?_
  rw [List.perm_ext_iff_of_nodup ((List.nodup_dedup _).filter _)
    (Finset.sort_nodup _ _)]
  intro a
  simp [List.mem_filter, List.mem_dedup, Finset.mem_sort, Finset.mem_inter,
    List.mem_toFinset]

/-- `computeRows` written over the spec-worded date list. -/
theorem computeRows_eq_filterMap (gold btc : PriceSeries) (mode : RatioMode)
    (limit : Nat) :
    computeRows gold btc mode limit
      = (specDates gold btc limit).filterMap fun date =>
          match lookup gold date, lookup btc date with
          | some g, some b =>
              if g ≠ 0 ∧ b ≠ 0 then
                some ⟨date, g, b, calculate_ratio mode g b⟩
              else none
          | _, _ => none := by
  simp only [computeRows, specDates, sorted_intersect_eq, takeLast]

theorem filterMap_map_date (dates : List String) (f : String → Option Row)
    (h : ∀ d ∈ dates, ∃ r, f d = some r ∧ r.date = d) :
    (dates.filterMap f).map Row.date = dates := by
  induction dates with
  | nil => simp
  | cons d rest ih =>
    obtain ⟨r, hf, hd⟩ := h d (List.mem_cons_self d rest)
    rw [List.filterMap_cons, hf]
    simp only [List.map_cons, hd]
    rw [ih fun x hx => h x (List.mem_cons_of_mem _ hx)]

/-! ### The claims -/

/-- C1: on a refresh cycle the gold fetch tries cache, then NBP, then
yfinance, in that order; when the cache misses, NBP fails and yfinance
succeeds, the statuses read NBP=failed then YFinance=succeeded and the
returned series is exactly the yfinance adapter output. -/
theorem gold_fallback_chain_order (env : GoldEnv) (e : String)
    (rows : List (String × ℚ))
    (hmiss : truthy (load_cached_prices env.storage env.now) = false)
    (hnbp : env.nbpResp = Except.error e)
    (hyf : env.yfHist = Except.ok rows) :
    (get_gold_prices_historical env).events
        = [Event.cacheRead, Event.nbpCall, Event.yfCall]
      ∧ (get_gold_prices_historical env).statuses
        = [⟨"NBP", false, e⟩, ⟨"YFinance", true, ""⟩]
      ∧ (get_gold_prices_historical env).series = some (yfParse rows)
      ∧ (get_gold_prices_historical env).series
        = (get_gold_prices_yfinance env).series := by
  simp [get_gold_prices_historical, get_gold_prices_yfinance, hmiss, hnbp, hyf]

theorem gold_fallback_chain_order_witness :
    truthy (load_cached_prices CacheStorage.missing 0) = false
      ∧ (get_gold_prices_historical
          ⟨CacheStorage.missing, 0, true, Except.error "Status code: 500",
            Except.ok [("2024-01-02", 190)]⟩).statuses
        = [⟨"NBP", false, "Status code: 500"⟩, ⟨"YFinance", true, ""⟩]
      ∧ (get_gold_prices_historical
          ⟨CacheStorage.missing, 0, true, Except.error "Status code: 500",
            Except.ok [("2024-01-02", 190)]⟩).series
        = some (yfParse [("2024-01-02", 190)]) :=
  ⟨by decide,
    (gold_fallback_chain_order
      ⟨CacheStorage.missing, 0, true, Except.error "Status code: 500",
        Except.ok [("2024-01-02", 190)]⟩
      "Status code: 500" [("2024-01-02", 190)] (by decide) rfl rfl).2.1,
    (gold_fallback_chain_order
      ⟨CacheStorage.missing, 0, true, Except.error "Status code: 500",
        Except.ok [("2024-01-02", 190)]⟩
      "Status code: 500" [("2024-01-02", 190)] (by decide) rfl rfl).2.2.1⟩

/-- C2: `load_cached_prices` returns the stored series exactly when the
record exists, is well formed, and is strictly younger than the one-hour
TTL; in every other case (missing file, malformed record, or age at or past
the TTL) it returns `none`.  The function is total, which models that no
exception ever reaches the caller. -/
theorem load_cached_prices_spec (storage : CacheStorage) (now : Int)
    (s : PriceSeries) :
    load_cached_prices storage now = some s
      ↔ ∃ ts, storage = CacheStorage.record ts s ∧ now - ts < TTL := by
  cases storage with
  | missing => simp [load_cached_prices]
  | malformed => simp [load_cached_prices]
  | record ts prices =>
    by_cases h : now - ts < TTL
    · simp only [load_cached_prices, if_pos h]
      constructor
      · intro hc
        injection hc with hc2
        exact ⟨ts, by rw [hc2], h⟩
      · rintro ⟨ts2, heq, hlt⟩
        injection heq with h1 h2
        rw [h2]
    · simp only [load_cached_prices, if_neg h]
      constructor
      · intro hc
        exact Option.noConfusion hc
      · rintro ⟨ts2, heq, hlt⟩
        injection heq with h1 h2
        subst h1
        exact absurd hlt h

/-- C3: the CoinGecko adapter keeps, for each calendar date, the first
observation encountered in the response — not the last and not an average:
a date looks up to the first `[timestampMillis, price]` pair mapped to it,
and on a concrete two-sample day the earlier price 100, not the later 200,
is retained. -/
theorem btc_first_observation_kept (dateOf : Int → String)
    (pairs : List (Int × ℚ)) (d : String) :
    lookup (btcParse dateOf pairs) d
        = ((pairs.find? fun p => dateOf p.1 == d).map Prod.snd)
      ∧ btcParse constDate [(0, 100), (86400000, 200)]
        = [("2024-01-01", 100)] := by
  constructor
  · rw [btcParse, btcParse_foldl_lookup]
    simp [lookup]
  · decide

/-- C5: `calculate_ratio` divides Bitcoin by gold in `btc_gold` mode and
gold by Bitcoin in `gold_btc` mode; on the one-date series gold 2000,
crypto 40000 the produced row ratio is 20 in `btc_gold` mode and 1/20 in
`gold_btc` mode. -/
theorem calculate_ratio_orientation (g b : ℚ) :
    calculate_ratio RatioMode.btc_gold g b = b / g
      ∧ calculate_ratio RatioMode.gold_btc g b = g / b
      ∧ (computeRows [("2024-01-01", 2000)] [("2024-01-01", 40000)]
          RatioMode.btc_gold 7).map Row.ratio = [20]
      ∧ (computeRows [("2024-01-01", 2000)] [("2024-01-01", 40000)]
          RatioMode.gold_btc 7).map Row.ratio = [1 / 20] := by
  refine ⟨rfl, rfl, ?_, ?_⟩ <;>
    · simp [computeRows, takeLast, keys, lookup, calculate_ratio]
      norm_num

/-- C6: a refresh request with `days ≤ 0` is rejected up front: the outcome
keeps the widget state and the cache file unchanged, performs no event (no
cache read, no network call), emits no status, and only reports the
validation error. -/
theorem nonpositive_days_rejected (days : Int) (mode : RatioMode) (env : Env)
    (st : AppState) (hd : days ≤ 0) :
    refresh_data days mode env st
      = ⟨st, env.gold.storage, [], [],
          some "Please enter a positive number of days"⟩ := by
  simp [refresh_data, hd]

theorem nonpositive_days_rejected_witness :
    (0 : Int) ≤ 0
      ∧ refresh_data 0 RatioMode.btc_gold
          ⟨⟨CacheStorage.missing, 0, true, Except.error "boom", Except.ok []⟩,
            constDate, Except.ok []⟩
          ⟨[], [], "old"⟩
        = ⟨⟨[], [], "old"⟩, CacheStorage.missing, [], [],
            some "Please enter a positive number of days"⟩ :=
  ⟨by decide,
    nonpositive_days_rejected 0 RatioMode.btc_gold
      ⟨⟨CacheStorage.missing, 0, true, Except.error "boom", Except.ok []⟩,
        constDate, Except.ok []⟩
      ⟨[], [], "old"⟩ (by decide)⟩

/-- C7: `cache_prices` overwrites the single cache slot with the current
time and the given series, and a failing write is swallowed: the gold chain
returns the same series and the same statuses whether the write succeeds or
fails, so a failed cache write never aborts the refresh. -/
theorem cache_store_best_effort (now : Int) (prices : PriceSeries)
    (storage : CacheStorage) (env : GoldEnv) :
    cache_prices now prices true storage = CacheStorage.record now prices
      ∧ (get_gold_prices_historical { env with writeOk := true }).series
        = (get_gold_prices_historical { env with writeOk := false }).series
      ∧ (get_gold_prices_historical { env with writeOk := true }).statuses
        = (get_gold_prices_historical { env with writeOk := false }).statuses := by
  refine ⟨rfl, ?_, ?_⟩ <;>
    · by_cases hc : truthy (load_cached_prices env.storage env.now) <;>
        cases hr : env.nbpResp <;>
          simp [get_gold_prices_historical, get_gold_prices_yfinance, hc, hr]

/-- C9: an adapter leg that succeeds with an empty series is treated exactly
like an absent leg, because presence is tested by dict truthiness: the
refresh reports the aggregate fetch failure and produces no rows. -/
theorem empty_series_treated_as_failure (days : Int) (mode : RatioMode)
    (env : Env) (st : AppState) (hd : 0 < days)
    (h : (get_gold_prices_historical env.gold).series = some []
        ∨ (get_bitcoin_prices_historical env.dateOf env.btcResp).series
          = some []) :
    (refresh_data days mode env st).dialog = some "Failed to fetch price data"
      ∧ (refresh_data days mode env st).state.current_data = []
      ∧ (refresh_data days mode env st).state.tree = [] := by
  have hd2 : ¬ days ≤ 0 := by omega
  rcases h with h | h <;> simp [refresh_data, hd2, h, truthy]

theorem empty_series_treated_as_failure_witness :
    (0 : Int) < 7
      ∧ (get_gold_prices_historical
          ⟨CacheStorage.missing, 0, true, Except.ok [], Except.ok []⟩).series
        = some []
      ∧ (refresh_data 7 RatioMode.btc_gold
          ⟨⟨CacheStorage.missing, 0, true, Except.ok [], Except.ok []⟩,
            constDate, Except.ok [(0, 50000)]⟩
          ⟨[], [], "old"⟩).dialog = some "Failed to fetch price data" :=
  ⟨by decide, by decide,
    (empty_series_treated_as_failure 7 RatioMode.btc_gold
      ⟨⟨CacheStorage.missing, 0, true, Except.ok [], Except.ok []⟩,
        constDate, Except.ok [(0, 50000)]⟩
      ⟨[], [], "old"⟩ (by decide) (Or.inl (by decide))).1⟩

/-- C4: for series respecting the all-prices-positive invariant and a
positive limit, the row loop outputs exactly the dates of the key-set
intersection, ascending, truncated to at most the last `limit` (most
recent) dates. -/
theorem refresh_dates_spec (gold btc : PriceSeries) (mode : RatioMode)
    (limit : Nat) (hl : 0 < limit)
    (hg : ∀ p ∈ gold, p.2 ≠ 0) (hb : ∀ p ∈ btc, p.2 ≠ 0) :
    (computeRows gold btc mode limit).map Row.date = specDates gold btc limit
      ∧ List.Sorted (· ≤ ·) ((computeRows gold btc mode limit).map Row.date)
      ∧ (computeRows gold btc mode limit).length ≤ limit := by
  have hmem : ∀ d ∈ specDates gold btc limit, d ∈ keys gold ∧ d ∈ keys btc := by
    intro d hd
    simp only [specDates, takeLast] at hd
    have h1 := (List.drop_sublist _ _).subset hd
    simpa [Finset.mem_sort, Finset.mem_inter, List.mem_toFinset] using h1
  have hdates : (computeRows gold btc mode limit).map Row.date
      = specDates gold btc limit := by
    rw [computeRows_eq_filterMap]
    apply filterMap_map_date
    intro d hd
    obtain ⟨hdg, hdb⟩ := hmem d hd
    obtain ⟨g, hgv⟩ := Option.isSome_iff_exists.mp
      ((lookup_isSome_iff gold d).mpr hdg)
    obtain ⟨b, hbv⟩ := Option.isSome_iff_exists.mp
      ((lookup_isSome_iff btc d).mpr hdb)
    refine ⟨⟨d, g, b, calculate_ratio mode g b⟩, ?_, rfl⟩
    rw [hgv, hbv]
    simp [hg _ (mem_of_lookup_eq_some hgv), hb _ (mem_of_lookup_eq_some hbv)]
  refine ⟨hdates, ?_, ?_⟩
  · rw [hdates]
    simp only [specDates, takeLast]
    exact List.Pairwise.sublist (List.drop_sublist _ _) (Finset.sort_sorted _ _)
  · have hlen := congrArg List.length hdates
    rw [List.length_map] at hlen
    rw [hlen]
    simp only [specDates, takeLast, List.length_drop]
    omega

theorem refresh_dates_spec_witness :
    (0 : Nat) < 3
      ∧ (∀ p ∈ ([("d1", 1), ("d2", 2), ("d3", 3)] : PriceSeries), p.2 ≠ 0)
      ∧ (computeRows [("d1", 1), ("d2", 2), ("d3", 3)]
          [("d2", 5), ("d3", 6), ("d4", 7)] RatioMode.btc_gold 3).map Row.date
        = specDates [("d1", 1), ("d2", 2), ("d3", 3)]
            [("d2", 5), ("d3", 6), ("d4", 7)] 3 :=
  ⟨by decide, by decide,
    (refresh_dates_spec [("d1", 1), ("d2", 2), ("d3", 3)]
      [("d2", 5), ("d3", 6), ("d4", 7)] RatioMode.btc_gold 3
      (by decide) (by decide) (by decide)).1⟩

/-- C8: the row computation is a deterministic pure function of its inputs:
re-evaluation on the same inputs gives the identical row sequence, and the
output depends only on the date → price mappings, not on the dictionaries'
insertion order (permuted duplicate-free representations give the identical
output). -/
theorem compute_rows_deterministic (g1 g2 b1 b2 : PriceSeries)
    (mode : RatioMode) (limit : Nat)
    (hgp : List.Perm g1 g2) (hbp : List.Perm b1 b2)
    (hgn : (keys g1).Nodup) (hbn : (keys b1).Nodup) :
    computeRows g1 b1 mode limit = computeRows g1 b1 mode limit
      ∧ computeRows g1 b1 mode limit = computeRows g2 b2 mode limit := by
  refine ⟨rfl, ?_⟩
  have hkg : List.Perm (keys g1) (keys g2) := hgp.map Prod.fst
  have hkb : List.Perm (keys b1) (keys b2) := hbp.map Prod.fst
  have hgn2 : (keys g2).Nodup := hkg.nodup_iff.mp hgn
  have h1 : ∀ a ∈ keys g2,
      (decide (a ∈ keys b1)) = (decide (a ∈ keys b2)) :=
    fun a _ => decide_eq_decide.mpr hkb.mem_iff
  have hfilter : List.Perm
      ((keys g1).filter fun d => decide (d ∈ keys b1))
      ((keys g2).filter fun d => decide (d ∈ keys b2)) := by
    have h2 := hkg.filter fun d => decide (d ∈ keys b1)
    rwa [List.filter_congr h1] at h2
  have hsort : List.insertionSort (· ≤ ·)
        ((keys g1).dedup.filter fun d => decide (d ∈ keys b1))
      = List.insertionSort (· ≤ ·)
        ((keys g2).dedup.filter fun d => decide (d ∈ keys b2)) := by
    rw [List.dedup_eq_self.mpr hgn, List.dedup_eq_self.mpr hgn2]
    exact List.eq_of_perm_of_sorted
      ((List.perm_insertionSort _ _).trans
        (hfilter.trans (List.perm_insertionSort _ _).symm))
      (List.sorted_insertionSort _ _) (List.sorted_insertionSort _ _)
  have hlg : ∀ k, lookup g1 k = lookup g2 k := lookup_congr_perm hgp hgn
  have hlb : ∀ k, lookup b1 k = lookup b2 k := lookup_congr_perm hbp hbn
  simp only [computeRows, hsort]
  apply List.filterMap_congr
  intro d _
  rw [hlg d, hlb d]

theorem compute_rows_deterministic_witness :
    List.Perm ([("a", 2), ("b", 3)] : PriceSeries) [("b", 3), ("a", 2)]
      ∧ computeRows [("a", 2), ("b", 3)] [("a", 5), ("b", 7)]
          RatioMode.btc_gold 7
        = computeRows [("b", 3), ("a", 2)] [("b", 7), ("a", 5)]
          RatioMode.btc_gold 7 :=
  ⟨by decide,
    (compute_rows_deterministic [("a", 2), ("b", 3)] [("b", 3), ("a", 2)]
      [("a", 5), ("b", 7)] [("b", 7), ("a", 5)] RatioMode.btc_gold 7
      (by decide) (by decide) (by decide) (by decide)).2⟩

/-- C10: a selected date at which either price is `0` produces no row — the
Python truthiness guard skips it — so every produced row carries two
nonzero prices looked up at its own date, and the ratio division never sees
a zero denominator. -/
theorem zero_price_dates_skipped (gold btc : PriceSeries) (mode : RatioMode)
    (limit : Nat) (d : String)
    (hz : lookup gold d = some 0 ∨ lookup btc d = some 0) :
    (∀ r ∈ computeRows gold btc mode limit, r.date ≠ d)
      ∧ ∀ r ∈ computeRows gold btc mode limit,
          r.gold_price ≠ 0 ∧ r.bitcoin_price ≠ 0
            ∧ lookup gold r.date = some r.gold_price
            ∧ lookup btc r.date = some r.bitcoin_price := by
  have hrow : ∀ r ∈ computeRows gold btc mode limit,
      r.gold_price ≠ 0 ∧ r.bitcoin_price ≠ 0
        ∧ lookup gold r.date = some r.gold_price
        ∧ lookup btc r.date = some r.bitcoin_price := by
    intro r hr
    simp only [computeRows] at hr
    obtain ⟨a, _, hf⟩ := List.mem_filterMap.mp hr
    rcases hga : lookup gold a with _ | g <;>
      rcases hgb : lookup btc a with _ | b <;>
        rw [hga, hgb] at hf
    · exact absurd hf (by simp)
    · exact absurd hf (by simp)
    · exact absurd hf (by simp)
    · simp only [] at hf
      split at hf
      · rename_i hcond
        injection hf with hf2
        subst hf2
        exact ⟨hcond.1, hcond.2, hga, hgb⟩
      · exact absurd hf (by simp)
  refine ⟨?_, hrow⟩
  intro r hr heq
  obtain ⟨hg0, hb0, hlg, hlb⟩ := hrow r hr
  rw [heq] at hlg hlb
  rcases hz with hz | hz
  · rw [hz] at hlg
    injection hlg with h2
    exact hg0 h2.symm
  · rw [hz] at hlb
    injection hlb with h2
    exact hb0 h2.symm

theorem zero_price_dates_skipped_witness :
    lookup [("a", 0), ("b", 2)] "a" = some 0
      ∧ ∀ r ∈ computeRows [("a", 0), ("b", 2)] [("a", 1), ("b", 4)]
          RatioMode.btc_gold 5, r.date ≠ "a" :=
  ⟨by decide,
    (zero_price_dates_skipped [("a", 0), ("b", 2)] [("a", 1), ("b", 4)]
      RatioMode.btc_gold 5 "a" (Or.inl (by decide))).1⟩

end PriceApp
